import Mathlib

/-!
Shallow embedding of the retrieval core of scripts/rag_server.py:
chunking (chunk_from_layout, chunk_text), hybrid retrieval (retrieve),
context assembly (format_context, _short_label, _make_snippet), the
chat event stream (stream_llm), and the /api/search and /api/chat
endpoint bodies.

Python strings are modelled as Lean String (a list of characters); the
Python string methods the code uses (str.split, " ".join, str.strip,
str.lower, str.replace, slicing,rsplit) are defined below on the
character list.  Floating point scores are modelled as rationals.
numpy argsort is modelled as a stable ascending sort followed by
reversal: numpy agrees with this model on short arrays (it uses a
stable insertion sort below its small-array cutoff) but its default
quicksort is not stable in general, so general theorems use only the
fact that the ranking is a score-sorted permutation.  External
collaborators (the rank_bm25 index, the fastembed embedder, the LLM
generators) are parameters of the functions that call them.
-/

/-- Maximal runs of characters satisfying p; the accumulator carries the
current run in reverse order.  With p = not-whitespace this is Python
str.split() with no argument; with p = token-character it is the scan
of re.findall over a character class. -/
def runsCore (p : Char → Bool) : List Char → List Char → List (List Char)
  | [], acc => if acc.isEmpty then [] else [acc.reverse]
  | c :: cs, acc =>
    if p c then runsCore p cs (c :: acc)
    else if acc.isEmpty then runsCore p cs []
    else acc.reverse :: runsCore p cs []

/-- Python str.split() with no argument: split on whitespace runs, dropping empties. -/
def pySplit (s : String) : List String :=
  (runsCore (fun c => !c.isWhitespace) s.data []).map String.mk

/-- Python " ".join(ws). -/
def joinSp : List String → String
  | [] => ""
  | [w] => w
  | w :: ws => w ++ " " ++ joinSp ws

/-- Python str.strip(): drop whitespace from both ends. -/
def pyStrip (s : String) : String :=
  String.mk (((s.data.dropWhile Char.isWhitespace).reverse.dropWhile Char.isWhitespace).reverse)

/-- Python str.lower() on the Latin ranges the corpus uses (ASCII and
Latin-1; other characters are unchanged). -/
def pyLower (s : String) : String :=
  String.mk (s.data.map (fun c =>
    if ('A' ≤ c ∧ c ≤ 'Z') ∨ (('À' ≤ c ∧ c ≤ 'Þ') ∧ c ≠ '×') then Char.ofNat (c.toNat + 32) else c))

/-- Membership in the regex character class of the code: ASCII letters,
Latin-1 letters, the Arabic block, and the apostrophe. -/
def isTokChar (c : Char) : Bool :=
  decide (('a' ≤ c ∧ c ≤ 'z') ∨ ('A' ≤ c ∧ c ≤ 'Z') ∨
    ('À' ≤ c ∧ c ≤ 'ÿ') ∨ (Char.ofNat 0x600 ≤ c ∧ c ≤ Char.ofNat 0x6FF) ∨ c = Char.ofNat 39)

/-- re.findall of the token pattern of the code over the lowercased
query: maximal class runs of length at least 2. -/
def pyTokenize (q : String) : List String :=
  ((runsCore isTokChar (pyLower q).data []).filter (fun r => 2 ≤ r.length)).map String.mk

/-- Python range(0, stop, step) for positive step (the code always calls
it with step = chunk size minus overlap = 300). -/
def pyRange (stop step : Nat) : List Nat :=
  (List.range ((stop + step - 1) / step)).map (fun m => m * step)

def CHUNK_WORDS : Nat := 350

def CHUNK_OVERLAP : Nat := 50

def TOP_K : Nat := 20

def MIN_SCORE : ℚ := 1/4

def MAX_CTX_WORDS : Nat := 5000

def BM25_WEIGHT : ℚ := 35/100

def EMBED_WEIGHT : ℚ := 65/100

/-- A chunk dict as produced by the chunkers: key, page, text, the
heading key (chunk_from_layout only), and the metadata keys that
build_index copies onto every chunk (absent, i.e. none, at chunking
time). -/
structure Chunk where
  key : String
  page : String
  text : String
  heading : Option String
  title : Option String
  authors : Option String
  year : Option String
deriving DecidableEq

def chunkDefault : Chunk :=
  { key := "", page := "", text := "", heading := none, title := none, authors := none, year := none }

/-- scripts/rag_server.py chunk_text: fixed-window chunking of one page. -/
def chunk_text (text : String) (key : String) (page : String) (chunkWords overlap : Nat) : List Chunk :=
  let words := pySplit text
  if words.isEmpty then []
  else
    let step := chunkWords - overlap
    (pyRange words.length step).filterMap (fun i =>
      let chunk := joinSp ((words.drop i).take chunkWords)
      if (pySplit chunk).length < 20 then none
      else some { key := key, page := page, text := chunk, heading := none,
                  title := none, authors := none, year := none })

/-- One layout element with its page tag, after the JSON prologue of
chunk_from_layout has collected the pages in page order (the dict get
defaults for label and text are already applied). -/
structure LayoutElement where
  label : String
  text : String
  page : Nat
deriving DecidableEq

structure DocSection where
  heading : String
  text : String
  pages : List Nat
deriving DecidableEq

def insertNat (x : Nat) : List Nat → List Nat
  | [] => [x]
  | y :: ys => if x ≤ y then x :: y :: ys else y :: insertNat x ys

def sortNat (l : List Nat) : List Nat := l.foldr insertNat []

/-- sorted(current_pages) for the Python set of pages. -/
def sortedDedup (l : List Nat) : List Nat := sortNat l.dedup

/-- The header-grouping loop of chunk_from_layout: the state is the
current heading, the accumulated texts, and the accumulated page set. -/
def sectionsGo : List LayoutElement → String → List String → List Nat → List DocSection
  | [], heading, texts, pages =>
    if texts.isEmpty then []
    else [{ heading := heading, text := joinSp texts, pages := sortedDedup pages }]
  | el :: rest, heading, texts, pages =>
    let t := pyStrip el.text
    if t = "" then sectionsGo rest heading texts pages
    else if el.label = "section_header" then
      (if texts.isEmpty then []
       else [{ heading := heading, text := joinSp texts, pages := sortedDedup pages }]) ++
        sectionsGo rest t [] []
    else sectionsGo rest heading (texts ++ [t]) (pages ++ [el.page])

def buildSections (elements : List LayoutElement) : List DocSection := sectionsGo elements "" [] []

/-- scripts/rag_server.py chunk_from_layout, starting from the collected
element list (JSON reading and the page collection loop are the I/O
prologue). -/
def chunk_from_layout (elements : List LayoutElement) (key : String) (maxWords overlap : Nat) : List Chunk :=
  if elements.isEmpty then []
  else
    (buildSections elements).flatMap (fun sec =>
      let words := pySplit sec.text
      let pageStr := match sec.pages with
        | [] => "1"
        | p :: _ => toString p
      if words.length ≤ maxWords then
        [{ key := key, page := pageStr, text := sec.text, heading := some sec.heading,
           title := none, authors := none, year := none }]
      else
        let step := maxWords - overlap
        (pyRange words.length step).filterMap (fun i =>
          let ct := joinSp ((words.drop i).take maxWords)
          if (pySplit ct).length < 20 then none
          else some { key := key, page := pageStr, text := ct, heading := some sec.heading,
                      title := none, authors := none, year := none }))

/-- A retrieval hit: the chunk keys plus the three scores the code adds. -/
structure Hit where
  key : String
  page : String
  text : String
  heading : Option String
  title : Option String
  authors : Option String
  year : Option String
  score : ℚ
  bm25 : ℚ
  semantic : ℚ
deriving DecidableEq

def hitDefault : Hit :=
  { key := "", page := "", text := "", heading := none, title := none, authors := none,
    year := none, score := 0, bm25 := 0, semantic := 0 }

/-- Python max over a list (the maximum of the raw bm25 scores); 0 for
the empty list, which the code never reaches. -/
def rawMax : List ℚ → ℚ
  | [] => 0
  | x :: xs => xs.foldl max x

/-- numpy dot product of two vectors. -/
def dotL (a b : List ℚ) : ℚ := ((a.zip b).map (fun p => p.1 * p.2)).sum

/-- The bm25 block of retrieve: zeros without an index or tokens, else
the raw scores normalised by the maximum when it is positive. -/
def bm25ScoresOf (query : String) (n : Nat) (bm25 : Option (List String → List ℚ)) : List ℚ :=
  match bm25 with
  | none => List.replicate n 0
  | some gs =>
    let tokens := pyTokenize query
    if tokens.isEmpty then List.replicate n 0
    else
      let raw := gs tokens
      let maxBm := if 0 < rawMax raw then rawMax raw else 1
      raw.map (fun x => x / maxBm)

/-- The embedding block of retrieve: cosine similarities shifted from
[-1,1] to [0,1]; zeros when there is no matrix or the query embedding
fails. -/
def embedScoresOf (query : String) (n : Nat) (embeddings : Option (List (List ℚ)))
    (embedQuery : String → Option (List ℚ)) : List ℚ :=
  match embeddings with
  | none => List.replicate n 0
  | some em =>
    match embedQuery query with
    | none => List.replicate n 0
    | some q => em.map (fun row => (dotL row q + 1) / 2)

/-- The weighted hybrid score: 0.35 bm25 + 0.65 embedding when an
embedding matrix exists, else the bm25 scores alone. -/
def combinedScoresOf (bs es : List ℚ) (hasEmb : Bool) : List ℚ :=
  if hasEmb then (bs.zip es).map (fun p => BM25_WEIGHT * p.1 + EMBED_WEIGHT * p.2) else bs

/-- Stable ascending insertion of index i by score: i goes after every
already placed index with an equal or smaller score. -/
def insertAsc (key : Nat → ℚ) (i : Nat) : List Nat → List Nat
  | [] => [i]
  | j :: rest => if key i < key j then i :: j :: rest else j :: insertAsc key i rest

/-- Stable ascending argsort of the scores of the indices 0..n-1. -/
def argsortAsc (key : Nat → ℚ) (n : Nat) : List Nat :=
  (List.range n).foldl (fun acc i => insertAsc key i acc) []

/-- np.argsort(combined) followed by [::-1].  numpy sorts ascending;
its default kind (quicksort) is NOT stable in general, so on tied
scores the real program fixes no particular order.  The model commits
to one concrete executable order — a stable ascending sort then
reversal — which coincides with numpy exactly on short arrays (numpy
uses a stable insertion sort below its small-array cutoff, e.g. the
two-element counterexample below).  All general theorems about the
ranking rely only on it being a score-sorted permutation of the
ordinals, which every argsort kind satisfies; only concrete
evaluations at short arrays additionally use the model tie order. -/
def argsortDesc (combined : List ℚ) : List Nat :=
  (argsortAsc (fun i => combined.getD i 0) combined.length).reverse

/-- The hit dict built for ranked index i. -/
def mkHit (chunks : List Chunk) (combined bs es : List ℚ) (i : Nat) : Hit :=
  let c := chunks.getD i chunkDefault
  { key := c.key, page := c.page, text := c.text, heading := c.heading, title := c.title,
    authors := c.authors, year := c.year,
    score := combined.getD i 0, bm25 := bs.getD i 0, semantic := es.getD i 0 }

/-- The top-k walk of retrieve: stop at the first below-threshold score,
skip duplicate (key, page) pairs, stop once k hits are collected. -/
def walkRanking (chunks : List Chunk) (combined bs es : List ℚ) (minScore : ℚ) (k : Nat) :
    List Nat → List (String × String) → Nat → List Hit
  | [], _, _ => []
  | i :: rest, seen, cnt =>
    if combined.getD i 0 < minScore then []
    else
      let c := chunks.getD i chunkDefault
      if (c.key, c.page) ∈ seen then walkRanking chunks combined bs es minScore k rest seen cnt
      else
        if k ≤ cnt + 1 then [mkHit chunks combined bs es i]
        else mkHit chunks combined bs es i ::
          walkRanking chunks combined bs es minScore k rest ((c.key, c.page) :: seen) (cnt + 1)

/-- scripts/rag_server.py retrieve.  The external collaborators are
parameters: bm25 is the get_scores method of the BM25Okapi index
(modelled from the spec as an abstract per-chunk score function),
embeddings is the matrix of chunk vectors, embedQuery is _embed_query,
which returns none on failure. -/
def retrieve (query : String) (chunks : List Chunk) (bm25 : Option (List String → List ℚ))
    (embeddings : Option (List (List ℚ))) (embedQuery : String → Option (List ℚ))
    (k : Nat) (minScore : ℚ) : List Hit :=
  if chunks.isEmpty then []
  else
    let n := chunks.length
    let bs := bm25ScoresOf query n bm25
    let es := embedScoresOf query n embeddings embedQuery
    let combined := combinedScoresOf bs es embeddings.isSome
    walkRanking chunks combined bs es minScore k (argsortDesc combined) [] 0

/-- Python s[:n] on strings. -/
def strTake (s : String) (n : Nat) : String := String.mk (s.data.take n)

/-- Python cs.rsplit(" ", 1)[0] at character level: everything before
the last space, or the whole list when it has no space. -/
def beforeLastSpace (cs : List Char) : List Char :=
  match cs.reverse.dropWhile (fun c => !(c = ' ')) with
  | [] => cs
  | _ :: restRev => restRev.reverse

/-- Bool test that pat is an initial segment of cs. -/
def listStartsWith (pat cs : List Char) : Bool := decide (cs.take pat.length = pat)

/-- Python str.replace worker: scan left to right, replacing each
non-overlapping occurrence of pat; fuel bounds the number of steps and
always suffices when it starts at the length of the scanned list. -/
def replaceFuel (pat rep : List Char) : Nat → List Char → List Char
  | 0, cs => cs
  | fuel + 1, cs =>
    match cs with
    | [] => []
    | c :: rest =>
      if pat ≠ [] ∧ listStartsWith pat cs then
        rep ++ replaceFuel pat rep fuel (cs.drop pat.length)
      else c :: replaceFuel pat rep fuel rest

/-- Python s.replace(pat, rep) for nonempty pat (the code only replaces
".pdf"). -/
def pyReplace (s pat rep : String) : String :=
  if pat = "" then s else String.mk (replaceFuel pat.data rep.data s.data.length s.data)

/-- Python s.split(sep) worker: cut at each non-overlapping occurrence
of sep; the accumulator carries the current piece reversed. -/
def splitOnFuel (sep : List Char) : Nat → List Char → List Char → List (List Char)
  | 0, acc, cs => [acc.reverse ++ cs]
  | fuel + 1, acc, cs =>
    match cs with
    | [] => [acc.reverse]
    | c :: rest =>
      if sep ≠ [] ∧ listStartsWith sep cs then
        acc.reverse :: splitOnFuel sep fuel [] (cs.drop sep.length)
      else splitOnFuel sep fuel (c :: acc) rest

/-- Python s.split(sep) for nonempty sep (the code only splits author
strings on ";"). -/
def pySplitOn (s sep : String) : List String :=
  if sep = "" then [s]
  else (splitOnFuel sep.data (s.data.length + 1) [] s.data).map String.mk

/-- scripts/rag_server.py _short_label. -/
def short_label (h : Hit) : String :=
  let author := pyStrip ((pySplitOn (h.authors.getD "") ";").headD "")
  let year := h.year.getD ""
  if author ≠ "" ∧ year ≠ "" then author ++ ", " ++ year
  else if author ≠ "" then author
  else
    let title := pyStrip (pyReplace (h.title.getD h.key) ".pdf" "")
    let words := (pySplit title).take 4
    let label := joinSp words
    let label2 := if words.length < (pySplit title).length then label ++ "…" else label
    if year ≠ "" then label2 ++ ", " ++ year else label2

/-- Round half to even at integer precision (the Python round builtin
on the rational score model). -/
def roundHalfEven (x : ℚ) : ℤ :=
  let f : ℤ := ⌊x⌋
  let r : ℚ := x - f
  if r < 1/2 then f
  else if 1/2 < r then f + 1
  else if f % 2 = 0 then f else f + 1

/-- Python round(x, 3). -/
def pyRound3 (x : ℚ) : ℚ := (roundHalfEven (x * 1000) : ℚ) / 1000

/-- scripts/rag_server.py _make_snippet. -/
def make_snippet (text : String) (maxChars : Nat) : String :=
  let t := joinSp (pySplit text)
  if t.data.length ≤ maxChars then t
  else String.mk (beforeLastSpace (t.data.take maxChars)) ++ "…"

/-- The packing loop of format_context, factored to return the
(citation label, body text) pairs that get joined; total is the word
count already spent. -/
def fcParts (maxWords : Nat) : List Hit → Nat → List (String × String)
  | [], _ => []
  | h :: rest, total =>
    let docLabel := "[" ++ short_label h ++ ", p." ++ h.page ++ "]"
    let chunkWords := (pySplit h.text).length
    if maxWords < total + chunkWords then
      let remaining := maxWords - total
      if remaining < 50 then []
      else [(docLabel, joinSp ((pySplit h.text).take remaining) ++ "…")]
    else (docLabel, h.text) :: fcParts maxWords rest (total + chunkWords)

/-- scripts/rag_server.py format_context. -/
def format_context (hits : List Hit) (maxWords : Nat) : String :=
  String.intercalate "\n\n---\n\n" ((fcParts maxWords hits 0).map (fun p => p.1 ++ "\n" ++ p.2))

def partsWordCount (parts : List (String × String)) : Nat :=
  (parts.map (fun p => (pySplit p.2).length)).sum

def partDefault : String × String := ("", "")

/-- Append t to the last string of a list (used to push the ellipsis
into the final word of a truncated snippet). -/
def withLastAppend (t : String) : List String → List String
  | [] => []
  | [w] => [w ++ t]
  | w :: ws => w :: withLastAppend t ws

structure SourceInfo where
  key : String
  page : String
  title : String
  authors : String
  year : String
  label : String
  score : ℚ
  snippet : String
deriving DecidableEq

inductive Event where
  | sources (srcs : List SourceInfo)
  | token (text : String)
  | done
deriving DecidableEq

/-- The per-hit source record emitted in the first stream event. -/
def mkSourceInfo (h : Hit) : SourceInfo :=
  { key := h.key, page := h.page, title := h.title.getD h.key,
    authors := pyStrip ((pySplitOn (h.authors.getD "") ";").headD ""),
    year := h.year.getD "", label := short_label h,
    score := pyRound3 h.score, snippet := make_snippet h.text 200 }

/-- The provider chosen by the first nonempty key, in the order the code
checks the environment. -/
def pickProvider (gk ok ak : String) : String :=
  if gk ≠ "" then "Gemini" else if ok ≠ "" then "OpenAI" else "Anthropic"

/-- scripts/rag_server.py stream_llm.  The external generator is a
parameter, modelled from the spec as the fragments it yields before
either finishing (genErr = none) or raising (genErr = some message).
Events are modelled structurally; the SSE data line serialisation is
presentation only. -/
def stream_llm (query context : String) (sources : List Hit) (gk ok ak : String)
    (genToks : List String) (genErr : Option String) : List Event :=
  let srcList := sources.map mkSourceInfo
  let body :=
    if gk = "" ∧ ok = "" ∧ ak = "" then
      [Event.token "Error: no API key found. Set GEMINI_API_KEY, OPENAI_API_KEY, or ANTHROPIC_API_KEY in .env",
       Event.done]
    else
      genToks.map Event.token ++
        ((match genErr with
          | some e => [Event.token ("Error (" ++ pickProvider gk ok ak ++ "): " ++ e)]
          | none => []) ++ [Event.done])
  Event.sources srcList :: body

inductive ChatResponse where
  | error (msg : String)
  | stream (events : List Event)
deriving DecidableEq

/-- scripts/rag_server.py chat endpoint body (the resident index and the
generator are parameters). -/
def chat (bodyQuery : Option String) (chunks : List Chunk) (bm25 : Option (List String → List ℚ))
    (embeddings : Option (List (List ℚ))) (embedQuery : String → Option (List ℚ))
    (gk ok ak : String) (genToks : List String) (genErr : Option String) : ChatResponse :=
  let query := pyStrip (bodyQuery.getD "")
  if query = "" then ChatResponse.error "empty query"
  else
    let hits := retrieve query chunks bm25 embeddings embedQuery TOP_K MIN_SCORE
    ChatResponse.stream (stream_llm query (format_context hits MAX_CTX_WORDS) hits gk ok ak genToks genErr)

structure SearchHit where
  key : String
  page : String
  score : ℚ
  bm25 : ℚ
  semantic : ℚ
  snippet : String
deriving DecidableEq

structure SearchResponse where
  query : String
  mode : String
  hits : List SearchHit
deriving DecidableEq

/-- scripts/rag_server.py search endpoint body: note there is no
emptiness check on the query before retrieve is called. -/
def search (bodyQuery : Option String) (bodyK : Option Nat) (chunks : List Chunk)
    (bm25 : Option (List String → List ℚ)) (embeddings : Option (List (List ℚ)))
    (embedQuery : String → Option (List ℚ)) : SearchResponse :=
  let query := bodyQuery.getD ""
  let k := bodyK.getD TOP_K
  { query := query,
    mode := if embeddings.isSome then "hybrid" else "bm25",
    hits := (retrieve query chunks bm25 embeddings embedQuery k MIN_SCORE).map (fun h =>
      { key := h.key, page := h.page, score := h.score, bm25 := h.bm25, semantic := h.semantic,
        snippet := strTake h.text 200 }) }

/-! ## String layer lemmas -/

theorem strData_append (s t : String) : (s ++ t).data = s.data ++ t.data := by
  cases s; cases t; rfl

theorem strAppend_assoc (a b c : String) : a ++ b ++ c = a ++ (b ++ c) := by
  cases a; cases b; cases c
  exact congrArg String.mk (List.append_assoc _ _ _)

theorem joinSp_cons_ne (a : String) (l : List String) (h : l ≠ []) :
    joinSp (a :: l) = a ++ " " ++ joinSp l := by
  cases l with
  | nil => exact absurd rfl h
  | cons b l2 => rfl

theorem runsCore_append_run (p : Char → Bool) (w : List Char) :
    ∀ (rest acc : List Char), (∀ c ∈ w, p c = true) →
      runsCore p (w ++ rest) acc = runsCore p rest (w.reverse ++ acc) := by
  induction w with
  | nil => intro rest acc _; simp
  | cons c w ih =>
    intro rest acc hw
    have hc : p c = true := hw c (by simp)
    show runsCore p (c :: (w ++ rest)) acc = _
    rw [show runsCore p (c :: (w ++ rest)) acc = runsCore p (w ++ rest) (c :: acc) by
      simp [runsCore, hc]]
    rw [ih rest (c :: acc) (fun d hd => hw d (by simp [hd]))]
    simp

theorem runsCore_break (p : Char → Bool) (c : Char) (rest acc : List Char) (hc : p c = false) :
    runsCore p (c :: rest) acc =
      if acc.isEmpty then runsCore p rest [] else acc.reverse :: runsCore p rest [] := by
  simp [runsCore, hc]

theorem runsCore_valid (p : Char → Bool) (cs : List Char) :
    ∀ (acc : List Char), (∀ c ∈ acc, p c = true) →
      ∀ w ∈ runsCore p cs acc, w ≠ [] ∧ ∀ c ∈ w, p c = true := by
  induction cs with
  | nil =>
    intro acc hacc w hw
    by_cases h : acc = []
    · subst h; simp [runsCore] at hw
    · have hne : acc.isEmpty = false := by simpa [List.isEmpty_iff] using h
      simp [runsCore, hne] at hw
      subst hw
      refine ⟨by simpa using h, fun c hc => hacc c (by simpa using hc)⟩
  | cons c cs ih =>
    intro acc hacc w hw
    by_cases hpc : p c = true
    · rw [show runsCore p (c :: cs) acc = runsCore p cs (c :: acc) by simp [runsCore, hpc]] at hw
      refine ih (c :: acc) ?_ w hw
      intro d hd
      rcases List.mem_cons.mp hd with h | h
      · subst h; exact hpc
      · exact hacc d h
    · have hpc2 : p c = false := by simpa using hpc
      rw [runsCore_break p c cs acc hpc2] at hw
      by_cases h : acc = []
      · subst h; simp at hw
        exact ih [] (by simp) w hw
      · have hne : acc.isEmpty = false := by simpa [List.isEmpty_iff] using h
        simp [hne] at hw
        rcases hw with hw | hw
        · subst hw
          refine ⟨by simpa using h, fun d hd => hacc d (by simpa using hd)⟩
        · exact ih [] (by simp) w hw

theorem pySplit_valid (s : String) :
    ∀ w ∈ pySplit s, w.data ≠ [] ∧ ∀ c ∈ w.data, c.isWhitespace = false := by
  intro w hw
  obtain ⟨cs, hcs, rfl⟩ := List.mem_map.mp hw
  obtain ⟨h1, h2⟩ := runsCore_valid _ _ [] (by simp) cs hcs
  exact ⟨h1, fun c hc => by simpa using h2 c hc⟩

theorem pySplit_joinSp (ws : List String)
    (hval : ∀ w ∈ ws, w.data ≠ [] ∧ ∀ c ∈ w.data, c.isWhitespace = false) :
    pySplit (joinSp ws) = ws := by
  induction ws with
  | nil => rfl
  | cons a l ih =>
    obtain ⟨hane, hach⟩ := hval a (by simp)
    have hrun : ∀ c ∈ a.data, (!c.isWhitespace) = true := fun c hc => by simp [hach c hc]
    cases l with
    | nil =>
      show (runsCore (fun c => !c.isWhitespace) (joinSp [a]).data []).map String.mk = [a]
      have : (joinSp [a]).data = a.data ++ [] := by simp [joinSp]
      rw [this, runsCore_append_run _ _ _ _ hrun]
      have hne : (a.data.reverse ++ []).isEmpty = false := by
        simp [List.isEmpty_iff, hane]
      have hne2 : a.data.reverse.isEmpty = false := by simp [List.isEmpty_iff, hane]
      simp only [runsCore, hne, hne2, Bool.false_eq_true, if_neg, not_false_eq_true,
        List.append_nil, List.reverse_reverse, List.map_cons, List.map_nil]
    | cons b l2 =>
      have hdata : (joinSp (a :: b :: l2)).data = a.data ++ (' ' :: (joinSp (b :: l2)).data) := by
        rw [joinSp_cons_ne a (b :: l2) (by simp)]
        rw [strData_append, strData_append]
        simp
      show (runsCore (fun c => !c.isWhitespace) (joinSp (a :: b :: l2)).data []).map String.mk
          = a :: b :: l2
      rw [hdata, runsCore_append_run _ _ _ _ hrun]
      rw [runsCore_break _ _ _ _ (by simp)]
      have hne : (a.data.reverse ++ []).isEmpty = false := by
        simp [List.isEmpty_iff, hane]
      simp only [hne, if_neg, Bool.false_eq_true, not_false_eq_true, List.map_cons]
      have ihx := ih (fun w hw => hval w (by simp [hw]))
      simp only [List.append_nil, List.reverse_reverse]
      show (String.mk a.data) :: pySplit (joinSp (b :: l2)) = a :: b :: l2
      rw [ihx]

theorem withLastAppend_length (t : String) (ws : List String) :
    (withLastAppend t ws).length = ws.length := by
  induction ws with
  | nil => rfl
  | cons a l ih =>
    cases l with
    | nil => rfl
    | cons b l2 => simpa [withLastAppend] using ih

theorem withLastAppend_valid (t : String) (ht : ∀ c ∈ t.data, c.isWhitespace = false)
    (ws : List String) (h : ∀ w ∈ ws, w.data ≠ [] ∧ ∀ c ∈ w.data, c.isWhitespace = false) :
    ∀ w ∈ withLastAppend t ws, w.data ≠ [] ∧ ∀ c ∈ w.data, c.isWhitespace = false := by
  induction ws with
  | nil => intro w hw; simp [withLastAppend] at hw
  | cons a l ih =>
    intro w hw
    cases l with
    | nil =>
      simp [withLastAppend] at hw
      subst hw
      obtain ⟨h1, h2⟩ := h a (by simp)
      rw [strData_append]
      refine ⟨by simp [h1], ?_⟩
      intro c hc
      rcases List.mem_append.mp hc with hc | hc
      · exact h2 c hc
      · exact ht c hc
    | cons b l2 =>
      rw [show withLastAppend t (a :: b :: l2) = a :: withLastAppend t (b :: l2) from rfl] at hw
      rcases List.mem_cons.mp hw with hw | hw
      · subst hw; exact h w (by simp)
      · exact ih (fun w2 hw2 => h w2 (by simp [hw2])) w hw

theorem joinSp_withLastAppend (t : String) (ws : List String) (h : ws ≠ []) :
    joinSp ws ++ t = joinSp (withLastAppend t ws) := by
  induction ws with
  | nil => exact absurd rfl h
  | cons a l ih =>
    cases l with
    | nil => rfl
    | cons b l2 =>
      have hlen : withLastAppend t (b :: l2) ≠ [] := by
        intro hx
        have := withLastAppend_length t (b :: l2)
        rw [hx] at this
        simp at this
      rw [show withLastAppend t (a :: b :: l2) = a :: withLastAppend t (b :: l2) from rfl]
      rw [joinSp_cons_ne a (b :: l2) (by simp), joinSp_cons_ne a _ hlen]
      rw [strAppend_assoc, ih (by simp)]

theorem pySplit_joinSp_ellipsis (ws : List String) (hne : ws ≠ [])
    (hval : ∀ w ∈ ws, w.data ≠ [] ∧ ∀ c ∈ w.data, c.isWhitespace = false) :
    (pySplit (joinSp ws ++ "…")).length = ws.length := by
  rw [joinSp_withLastAppend _ _ hne]
  rw [pySplit_joinSp _ (withLastAppend_valid "…" (by decide) ws hval)]
  exact withLastAppend_length _ _

/-! ## Chunker lemmas -/

theorem mem_pyRange_of (stop step m : Nat) (hstep : 0 < step) (h : m * step < stop) :
    m * step ∈ pyRange stop step := by
  refine List.mem_map.mpr ⟨m, List.mem_range.mpr ?_, rfl⟩
  have h2 : (m + 1) * step ≤ stop + step - 1 := by
    have hx : m * step + step ≤ stop + step - 1 := by omega
    calc (m + 1) * step = m * step + step := by ring
      _ ≤ stop + step - 1 := hx
  have h3 := (Nat.le_div_iff_mul_le hstep).mpr h2
  omega

theorem chunk_text_min_words (text key page : String) (cw ov : Nat) :
    ∀ c ∈ chunk_text text key page cw ov, 20 ≤ (pySplit c.text).length := by
  intro c hc
  simp only [chunk_text] at hc
  split at hc
  · simp at hc
  · obtain ⟨i, hi, hf⟩ := List.mem_filterMap.mp hc
    split at hf
    · simp at hf
    · rename_i hguard
      cases hf
      exact Nat.le_of_not_lt hguard

theorem chunk_from_layout_min_or_section (elements : List LayoutElement) (key : String) (mw ov : Nat) :
    ∀ c ∈ chunk_from_layout elements key mw ov,
      20 ≤ (pySplit c.text).length ∨
      ∃ sec ∈ buildSections elements, c.text = sec.text ∧ (pySplit sec.text).length ≤ mw := by
  intro c hc
  simp only [chunk_from_layout] at hc
  split at hc
  · simp at hc
  · obtain ⟨sec, hsec, hmem⟩ := List.mem_flatMap.mp hc
    by_cases hle : (pySplit sec.text).length ≤ mw
    · right
      simp only [hle, if_pos, List.mem_singleton] at hmem
      subst hmem
      exact ⟨sec, hsec, rfl, hle⟩
    · left
      simp only [hle, if_neg, Bool.false_eq_true, not_false_eq_true] at hmem
      obtain ⟨i, hi, hf⟩ := List.mem_filterMap.mp hmem
      split at hf
      · simp at hf
      · rename_i hguard
        cases hf
        exact Nat.le_of_not_lt hguard

/-- Claim C1 (amended): every chunk emitted by fixed-window chunking
(chunk_text) and every sub-window chunk of an over-long section in
chunk_from_layout has at least 20 whitespace-separated words (the
below-minimum windows are dropped); but a section whose own word count
is at most the window budget is emitted whole with no minimum-word
check, so structure-aware chunks shorter than 20 words are emitted. -/
theorem chunker_min_words_amended :
    (∀ text key page cw ov, ∀ c ∈ chunk_text text key page cw ov,
        20 ≤ (pySplit c.text).length) ∧
    (∀ elements key mw ov, ∀ c ∈ chunk_from_layout elements key mw ov,
        20 ≤ (pySplit c.text).length ∨
        ∃ sec ∈ buildSections elements, c.text = sec.text ∧ (pySplit sec.text).length ≤ mw) :=
  ⟨chunk_text_min_words, chunk_from_layout_min_or_section⟩

/-- Claim C1 counterexample: a layout document whose only section has
two words produces a chunk whose text has fewer than 20 words, so the
claim that every produced chunk has at least 20 words is false. -/
theorem chunker_min_words_counterexample :
    chunk_from_layout [{ label := "text", text := "too short", page := 1 }] "k"
        CHUNK_WORDS CHUNK_OVERLAP ≠ [] ∧
    (pySplit ((chunk_from_layout [{ label := "text", text := "too short", page := 1 }] "k"
        CHUNK_WORDS CHUNK_OVERLAP).headD chunkDefault).text).length < 20 := by
  decide

/-- Witness for the amended claim C1 at a concrete 21-word page. -/
theorem chunker_min_words_amended_witness :
    20 ≤ (pySplit (((chunk_text "a b c d e f g h i j k l m n o p q r s t u" "k" "1"
        CHUNK_WORDS CHUNK_OVERLAP)).headD chunkDefault).text).length :=
  chunker_min_words_amended.1 "a b c d e f g h i j k l m n o p q r s t u" "k" "1"
    CHUNK_WORDS CHUNK_OVERLAP _ (by decide)

/-! ## Ranking lemmas -/

theorem mem_insertAsc (key : Nat → ℚ) (i x : Nat) (l : List Nat) :
    x ∈ insertAsc key i l ↔ x = i ∨ x ∈ l := by
  induction l with
  | nil => simp [insertAsc]
  | cons j rest ih =>
    simp only [insertAsc]
    split
    · simp [List.mem_cons]
    · simp [List.mem_cons, ih]
      tauto

theorem insertAsc_pairwise (key : Nat → ℚ) (i : Nat) (l : List Nat)
    (hl : l.Pairwise (fun a b => key a < key b ∨ (key a = key b ∧ a < b)))
    (hlt : ∀ j ∈ l, j < i) :
    (insertAsc key i l).Pairwise (fun a b => key a < key b ∨ (key a = key b ∧ a < b)) := by
  induction l with
  | nil => simp [insertAsc]
  | cons j rest ih =>
    simp only [insertAsc]
    split
    · rename_i hij
      refine List.Pairwise.cons ?_ hl
      intro b hb
      rcases List.mem_cons.mp hb with rfl | hb
      · exact Or.inl hij
      · rcases (List.pairwise_cons.mp hl).1 b hb with h | ⟨heq, _⟩
        · exact Or.inl (lt_trans hij h)
        · exact Or.inl (heq ▸ hij)
    · rename_i hij
      have hji : key j ≤ key i := le_of_not_lt hij
      refine List.Pairwise.cons ?_
        (ih (List.pairwise_cons.mp hl).2 (fun a ha => hlt a (by simp [ha])))
      intro b hb
      rcases (mem_insertAsc key i b rest).mp hb with rfl | hb
      · rcases lt_or_eq_of_le hji with h | h
        · exact Or.inl h
        · exact Or.inr ⟨h, hlt j (by simp)⟩
      · exact (List.pairwise_cons.mp hl).1 b hb

theorem foldl_insertAsc_pairwise (key : Nat → ℚ) (l : List Nat) :
    ∀ acc : List Nat,
      acc.Pairwise (fun a b => key a < key b ∨ (key a = key b ∧ a < b)) →
      (∀ a ∈ acc, ∀ b ∈ l, a < b) → l.Pairwise (· < ·) →
      (l.foldl (fun acc i => insertAsc key i acc) acc).Pairwise
        (fun a b => key a < key b ∨ (key a = key b ∧ a < b)) := by
  induction l with
  | nil => intro acc h _ _; simpa using h
  | cons i rest ih =>
    intro acc hacc hcross hl
    simp only [List.foldl_cons]
    refine ih _ ?_ ?_ (List.pairwise_cons.mp hl).2
    · exact insertAsc_pairwise key i acc hacc (fun j hj => hcross j hj i (by simp))
    · intro a ha b hb
      rcases (mem_insertAsc key i a acc).mp ha with rfl | ha
      · exact (List.pairwise_cons.mp hl).1 b hb
      · exact hcross a ha b (by simp [hb])

theorem argsortAsc_pairwise (key : Nat → ℚ) (n : Nat) :
    (argsortAsc key n).Pairwise (fun a b => key a < key b ∨ (key a = key b ∧ a < b)) :=
  foldl_insertAsc_pairwise key (List.range n) [] (by simp) (by simp) (List.pairwise_lt_range n)

theorem argsortDesc_pairwise (combined : List ℚ) :
    (argsortDesc combined).Pairwise
      (fun a b => combined.getD b 0 < combined.getD a 0 ∨
        (combined.getD b 0 = combined.getD a 0 ∧ b < a)) := by
  unfold argsortDesc
  rw [List.pairwise_reverse]
  exact argsortAsc_pairwise _ _

theorem walkRanking_sub (chunks : List Chunk) (combined bs es : List ℚ) (minScore : ℚ) (k : Nat) :
    ∀ (idx : List Nat) (seen : List (String × String)) (cnt : Nat),
      ∃ sub : List Nat, sub.Sublist idx ∧
        walkRanking chunks combined bs es minScore k idx seen cnt =
          sub.map (mkHit chunks combined bs es) := by
  intro idx
  induction idx with
  | nil => intro seen cnt; exact ⟨[], by simp, rfl⟩
  | cons i rest ih =>
    intro seen cnt
    simp only [walkRanking]
    split
    · exact ⟨[], by simp, rfl⟩
    · split
      · obtain ⟨sub, hs, he⟩ := ih seen cnt
        exact ⟨sub, List.Sublist.cons i hs, he⟩
      · split
        · exact ⟨[i], List.Sublist.cons₂ i (List.nil_sublist rest), rfl⟩
        · obtain ⟨sub, hs, he⟩ := ih _ _
          exact ⟨i :: sub, List.Sublist.cons₂ i hs, by rw [List.map_cons, he]⟩

theorem walkRanking_min_score (chunks : List Chunk) (combined bs es : List ℚ) (minScore : ℚ) (k : Nat) :
    ∀ (idx : List Nat) (seen : List (String × String)) (cnt : Nat),
      ∀ h ∈ walkRanking chunks combined bs es minScore k idx seen cnt, minScore ≤ h.score := by
  intro idx
  induction idx with
  | nil => intro seen cnt h hh; simp [walkRanking] at hh
  | cons i rest ih =>
    intro seen cnt h hh
    simp only [walkRanking] at hh
    split at hh
    · simp at hh
    · rename_i hsc
      split at hh
      · exact ih seen cnt h hh
      · split at hh
        · simp at hh
          subst hh
          exact le_of_not_lt hsc
        · rcases List.mem_cons.mp hh with rfl | hh
          · exact le_of_not_lt hsc
          · exact ih _ _ h hh

theorem walkRanking_uid (chunks : List Chunk) (combined bs es : List ℚ) (minScore : ℚ) (k : Nat) :
    ∀ (idx : List Nat) (seen : List (String × String)) (cnt : Nat),
      (∀ h ∈ walkRanking chunks combined bs es minScore k idx seen cnt,
          (h.key, h.page) ∉ seen) ∧
      (walkRanking chunks combined bs es minScore k idx seen cnt).Pairwise
        (fun h g => ¬(h.key = g.key ∧ h.page = g.page)) := by
  intro idx
  induction idx with
  | nil =>
    intro seen cnt
    constructor
    · intro h hh; simp [walkRanking] at hh
    · simp [walkRanking]
  | cons i rest ih =>
    intro seen cnt
    simp only [walkRanking]
    split
    · constructor
      · intro h hh; simp at hh
      · simp
    · split
      · exact ih seen cnt
      · rename_i hseen
        split
        · constructor
          · intro h hh
            simp at hh
            subst hh
            exact hseen
          · simp
        · constructor
          · intro h hh
            rcases List.mem_cons.mp hh with rfl | hh
            · exact hseen
            · have hx := (ih _ (cnt + 1)).1 h hh
              intro hmem
              exact hx (List.mem_cons_of_mem _ hmem)
          · refine List.Pairwise.cons ?_ (ih _ _).2
            intro g hg
            have hnotin := (ih _ (cnt + 1)).1 g hg
            rintro ⟨hk, hp⟩
            apply hnotin
            rw [← hk, ← hp]
            exact List.mem_cons_self _ _

theorem walkRanking_length (chunks : List Chunk) (combined bs es : List ℚ) (minScore : ℚ) (k : Nat) :
    ∀ (idx : List Nat) (seen : List (String × String)) (cnt : Nat), cnt < k →
      (walkRanking chunks combined bs es minScore k idx seen cnt).length ≤ k - cnt := by
  intro idx
  induction idx with
  | nil => intro seen cnt _; simp [walkRanking]
  | cons i rest ih =>
    intro seen cnt hck
    simp only [walkRanking]
    split
    · simp
    · split
      · exact ih seen cnt hck
      · split
        · simp
          omega
        · rename_i hkc
          have h2 : cnt + 1 < k := by omega
          have h3 := ih (((chunks.getD i chunkDefault).key,
            (chunks.getD i chunkDefault).page) :: seen) (cnt + 1) h2
          simp only [List.length_cons]
          omega

theorem pairwise_getD_consec {α : Type} {R : α → α → Prop} (l : List α) (d : α)
    (h : l.Pairwise R) : ∀ i, i + 1 < l.length → R (l.getD i d) (l.getD (i + 1) d) := by
  intro i hi
  have h1 : i < l.length := by omega
  have hrel := List.pairwise_iff_getElem.mp h i (i + 1) h1 hi (by omega)
  have e1 : l.getD i d = l[i] := by
    rw [List.getD_eq_getElem?_getD, List.getElem?_eq_getElem h1]
    rfl
  have e2 : l.getD (i + 1) d = l[i + 1] := by
    rw [List.getD_eq_getElem?_getD, List.getElem?_eq_getElem hi]
    rfl
  rw [e1, e2]
  exact hrel

/-- Claim C4: the hit list returned by retrieve is sorted in
non-increasing order of combined score: the score of hit i+1 never
exceeds the score of hit i. -/
theorem retrieve_sorted_desc (query : String) (chunks : List Chunk)
    (bm25 : Option (List String → List ℚ)) (embeddings : Option (List (List ℚ)))
    (embedQuery : String → Option (List ℚ)) (k : Nat) (minScore : ℚ) :
    ∀ i : Nat,
      i + 1 < (retrieve query chunks bm25 embeddings embedQuery k minScore).length →
      ((retrieve query chunks bm25 embeddings embedQuery k minScore).getD (i + 1) hitDefault).score ≤
        ((retrieve query chunks bm25 embeddings embedQuery k minScore).getD i hitDefault).score := by
  have hpw : (retrieve query chunks bm25 embeddings embedQuery k minScore).Pairwise
      (fun a b => b.score ≤ a.score) := by
    unfold retrieve
    split
    · simp
    · show List.Pairwise (fun a b => b.score ≤ a.score)
        (walkRanking chunks
          (combinedScoresOf (bm25ScoresOf query chunks.length bm25)
            (embedScoresOf query chunks.length embeddings embedQuery) embeddings.isSome)
          (bm25ScoresOf query chunks.length bm25)
          (embedScoresOf query chunks.length embeddings embedQuery) minScore k
          (argsortDesc (combinedScoresOf (bm25ScoresOf query chunks.length bm25)
            (embedScoresOf query chunks.length embeddings embedQuery) embeddings.isSome)) [] 0)
      obtain ⟨sub, hs, he⟩ :=
        walkRanking_sub chunks
          (combinedScoresOf (bm25ScoresOf query chunks.length bm25)
            (embedScoresOf query chunks.length embeddings embedQuery) embeddings.isSome)
          (bm25ScoresOf query chunks.length bm25)
          (embedScoresOf query chunks.length embeddings embedQuery) minScore k
          (argsortDesc (combinedScoresOf (bm25ScoresOf query chunks.length bm25)
            (embedScoresOf query chunks.length embeddings embedQuery) embeddings.isSome)) [] 0
      rw [he, List.pairwise_map]
      have hdesc : (argsortDesc (combinedScoresOf (bm25ScoresOf query chunks.length bm25)
            (embedScoresOf query chunks.length embeddings embedQuery) embeddings.isSome)).Pairwise
          (fun a b =>
            (combinedScoresOf (bm25ScoresOf query chunks.length bm25)
              (embedScoresOf query chunks.length embeddings embedQuery) embeddings.isSome).getD b 0 ≤
            (combinedScoresOf (bm25ScoresOf query chunks.length bm25)
              (embedScoresOf query chunks.length embeddings embedQuery) embeddings.isSome).getD a 0) := by
        refine (argsortDesc_pairwise _).imp ?_
        intro a b hab
        rcases hab with h | ⟨h, _⟩
        · exact le_of_lt h
        · exact le_of_eq h
      exact hdesc.sublist hs
  exact pairwise_getD_consec _ hitDefault hpw

/-- Witness for claim C4 at a concrete two-chunk index with distinct scores. -/
theorem retrieve_sorted_desc_witness :
    ((retrieve "qq"
        [{ key := "a", page := "1", text := "ta", heading := none, title := none,
           authors := none, year := none },
         { key := "b", page := "2", text := "tb", heading := none, title := none,
           authors := none, year := none }]
        none (some [[1], [0]]) (fun _ => some [1]) TOP_K MIN_SCORE).getD 1 hitDefault).score ≤
      ((retrieve "qq"
        [{ key := "a", page := "1", text := "ta", heading := none, title := none,
           authors := none, year := none },
         { key := "b", page := "2", text := "tb", heading := none, title := none,
           authors := none, year := none }]
        none (some [[1], [0]]) (fun _ => some [1]) TOP_K MIN_SCORE).getD 0 hitDefault).score :=
  retrieve_sorted_desc "qq" _ none (some [[1], [0]]) (fun _ => some [1]) TOP_K MIN_SCORE 0
    (by with_unfolding_all decide)

/-- Claim C5: retrieve never returns a hit whose combined score is below
the min_score threshold. -/
theorem retrieve_threshold (query : String) (chunks : List Chunk)
    (bm25 : Option (List String → List ℚ)) (embeddings : Option (List (List ℚ)))
    (embedQuery : String → Option (List ℚ)) (k : Nat) (minScore : ℚ) :
    ∀ h ∈ retrieve query chunks bm25 embeddings embedQuery k minScore, minScore ≤ h.score := by
  intro h hh
  unfold retrieve at hh
  split at hh
  · simp at hh
  · exact walkRanking_min_score _ _ _ _ _ _ _ _ _ h hh

/-- Witness for claim C5 at a concrete index with one above-threshold hit. -/
theorem retrieve_threshold_witness :
    MIN_SCORE ≤ ((retrieve "qq"
        [{ key := "a", page := "1", text := "ta", heading := none, title := none,
           authors := none, year := none }]
        none (some [[1]]) (fun _ => some [1]) TOP_K MIN_SCORE).headD hitDefault).score :=
  retrieve_threshold "qq"
    [{ key := "a", page := "1", text := "ta", heading := none, title := none,
       authors := none, year := none }]
    none (some [[1]]) (fun _ => some [1]) TOP_K MIN_SCORE _
    (by with_unfolding_all decide)

/-- Claim C6: no two hits of one retrieve result share the same
(document key, page) pair, and at most k hits are returned. -/
theorem retrieve_dedup_topk (query : String) (chunks : List Chunk)
    (bm25 : Option (List String → List ℚ)) (embeddings : Option (List (List ℚ)))
    (embedQuery : String → Option (List ℚ)) (k : Nat) (minScore : ℚ) (hk : 0 < k) :
    (retrieve query chunks bm25 embeddings embedQuery k minScore).Pairwise
        (fun h g => ¬(h.key = g.key ∧ h.page = g.page)) ∧
    (retrieve query chunks bm25 embeddings embedQuery k minScore).length ≤ k := by
  unfold retrieve
  split
  · simp
  · constructor
    · exact (walkRanking_uid _ _ _ _ _ _ _ _ _).2
    · show (walkRanking chunks
          (combinedScoresOf (bm25ScoresOf query chunks.length bm25)
            (embedScoresOf query chunks.length embeddings embedQuery) embeddings.isSome)
          (bm25ScoresOf query chunks.length bm25)
          (embedScoresOf query chunks.length embeddings embedQuery) minScore k
          (argsortDesc (combinedScoresOf (bm25ScoresOf query chunks.length bm25)
            (embedScoresOf query chunks.length embeddings embedQuery) embeddings.isSome)) [] 0).length ≤ k
      have hlen := walkRanking_length chunks
        (combinedScoresOf (bm25ScoresOf query chunks.length bm25)
          (embedScoresOf query chunks.length embeddings embedQuery) embeddings.isSome)
        (bm25ScoresOf query chunks.length bm25)
        (embedScoresOf query chunks.length embeddings embedQuery) minScore k
        (argsortDesc (combinedScoresOf (bm25ScoresOf query chunks.length bm25)
          (embedScoresOf query chunks.length embeddings embedQuery) embeddings.isSome)) [] 0 hk
      omega

/-- Witness for claim C6: two chunks sharing (key, page) plus a third,
k = 2, all tied: the result keeps one hit per pair and at most two hits. -/
theorem retrieve_dedup_topk_witness :
    (retrieve "qq"
        [{ key := "a", page := "1", text := "t1", heading := none, title := none,
           authors := none, year := none },
         { key := "a", page := "1", text := "t2", heading := none, title := none,
           authors := none, year := none },
         { key := "b", page := "2", text := "t3", heading := none, title := none,
           authors := none, year := none }]
        none (some [[1], [1], [1]]) (fun _ => some [1]) 2 MIN_SCORE).Pairwise
        (fun h g => ¬(h.key = g.key ∧ h.page = g.page)) ∧
    (retrieve "qq"
        [{ key := "a", page := "1", text := "t1", heading := none, title := none,
           authors := none, year := none },
         { key := "a", page := "1", text := "t2", heading := none, title := none,
           authors := none, year := none },
         { key := "b", page := "2", text := "t3", heading := none, title := none,
           authors := none, year := none }]
        none (some [[1], [1], [1]]) (fun _ => some [1]) 2 MIN_SCORE).length ≤ 2 :=
  retrieve_dedup_topk "qq" _ none (some [[1], [1], [1]]) (fun _ => some [1]) 2 MIN_SCORE
    (by decide)

/-- Claim C9 counterexample: two chunks with equal combined scores are
returned with the larger ordinal first: the chunk produced second during
indexing (key b) precedes the chunk produced first (key a), contradicting
the claimed smaller-ordinal-first tie-break.  On a two-element array
numpy argsort is its (stable) insertion sort, so the modelled order is
exactly what the program produces here. -/
theorem retrieve_tie_order_counterexample :
    (retrieve "qq"
        [{ key := "a", page := "1", text := "ta", heading := none, title := none,
           authors := none, year := none },
         { key := "b", page := "1", text := "tb", heading := none, title := none,
           authors := none, year := none }]
        none none (fun _ => none) TOP_K 0).map (fun h => h.key) = ["b", "a"] ∧
      (["b", "a"] : List String) ≠ ["a", "b"] := by with_unfolding_all decide

theorem insertAsc_perm (key : Nat → ℚ) (i : Nat) (l : List Nat) :
    (insertAsc key i l).Perm (i :: l) := by
  induction l with
  | nil => simp [insertAsc]
  | cons j rest ih =>
    simp only [insertAsc]
    split
    · exact List.Perm.refl _
    · exact (ih.cons j).trans (List.Perm.swap i j rest)

theorem foldl_insertAsc_perm (key : Nat → ℚ) (l : List Nat) :
    ∀ acc : List Nat, (l.foldl (fun acc i => insertAsc key i acc) acc).Perm (l ++ acc) := by
  induction l with
  | nil => intro acc; simp
  | cons i rest ih =>
    intro acc
    simp only [List.foldl_cons]
    refine (ih (insertAsc key i acc)).trans ?_
    refine (List.Perm.append_left rest (insertAsc_perm key i acc)).trans ?_
    exact List.perm_middle

theorem argsortDesc_perm (combined : List ℚ) :
    (argsortDesc combined).Perm (List.range combined.length) := by
  unfold argsortDesc argsortAsc
  refine (List.reverse_perm _).trans ?_
  simpa using foldl_insertAsc_perm (fun i => combined.getD i 0) (List.range combined.length) []

/-- Claim C9 (amended): retrieve guarantees no ordinal-based tie-break
at all.  The ranking it walks is some permutation of all chunk ordinals
ordered by non-increasing combined score — on ties the order is
whatever np.argsort (default quicksort, not stable) leaves after the
reversal, so neither smaller-ordinal-first nor larger-ordinal-first is
guaranteed in general — and the returned hits are the hits of a
subsequence of that ranking, in ranking order.  The concrete
counterexample separately refutes the claimed smaller-ordinal-first
order: on a two-element array numpy sorts by insertion, and the
reversal returns the tied chunks larger ordinal first. -/
theorem retrieve_tie_amended (query : String) (chunks : List Chunk)
    (bm25 : Option (List String → List ℚ)) (embeddings : Option (List (List ℚ)))
    (embedQuery : String → Option (List ℚ)) (k : Nat) (minScore : ℚ) :
    ((argsortDesc (combinedScoresOf (bm25ScoresOf query chunks.length bm25)
          (embedScoresOf query chunks.length embeddings embedQuery) embeddings.isSome)).Perm
        (List.range (combinedScoresOf (bm25ScoresOf query chunks.length bm25)
          (embedScoresOf query chunks.length embeddings embedQuery) embeddings.isSome).length)) ∧
    ((argsortDesc (combinedScoresOf (bm25ScoresOf query chunks.length bm25)
          (embedScoresOf query chunks.length embeddings embedQuery) embeddings.isSome)).Pairwise
        (fun a b =>
          (combinedScoresOf (bm25ScoresOf query chunks.length bm25)
              (embedScoresOf query chunks.length embeddings embedQuery) embeddings.isSome).getD b 0 ≤
            (combinedScoresOf (bm25ScoresOf query chunks.length bm25)
              (embedScoresOf query chunks.length embeddings embedQuery) embeddings.isSome).getD a 0)) ∧
    ∃ sub : List Nat,
      sub.Sublist (argsortDesc (combinedScoresOf (bm25ScoresOf query chunks.length bm25)
        (embedScoresOf query chunks.length embeddings embedQuery) embeddings.isSome)) ∧
      retrieve query chunks bm25 embeddings embedQuery k minScore =
        sub.map (mkHit chunks
          (combinedScoresOf (bm25ScoresOf query chunks.length bm25)
            (embedScoresOf query chunks.length embeddings embedQuery) embeddings.isSome)
          (bm25ScoresOf query chunks.length bm25)
          (embedScoresOf query chunks.length embeddings embedQuery)) := by
  refine ⟨argsortDesc_perm _, ?_, ?_⟩
  · refine (argsortDesc_pairwise _).imp ?_
    intro a b hab
    rcases hab with h | ⟨h, _⟩
    · exact le_of_lt h
    · exact le_of_eq h
  · unfold retrieve
    split
    · exact ⟨[], List.nil_sublist _, rfl⟩
    · exact walkRanking_sub _ _ _ _ _ _ _ _ _

/-! ## Score boundedness lemmas -/

theorem le_foldl_max (l : List ℚ) : ∀ a : ℚ, a ≤ l.foldl max a ∧ ∀ x ∈ l, x ≤ l.foldl max a := by
  induction l with
  | nil => intro a; exact ⟨le_refl a, by simp⟩
  | cons y ys ih =>
    intro a
    have h := ih (max a y)
    refine ⟨le_trans (le_max_left a y) h.1, ?_⟩
    intro x hx
    rcases List.mem_cons.mp hx with rfl | hx
    · exact le_trans (le_max_right a x) h.1
    · exact h.2 x hx

theorem le_rawMax (l : List ℚ) : ∀ x ∈ l, x ≤ rawMax l := by
  intro x hx
  cases l with
  | nil => simp at hx
  | cons y ys =>
    rcases List.mem_cons.mp hx with rfl | hx
    · exact (le_foldl_max ys x).1
    · exact (le_foldl_max ys y).2 x hx

theorem getD_bounds_01 (l : List ℚ) (h : ∀ x ∈ l, 0 ≤ x ∧ x ≤ 1) (i : Nat) :
    0 ≤ l.getD i 0 ∧ l.getD i 0 ≤ 1 := by
  by_cases hi : i < l.length
  · have he : l.getD i 0 = l[i] := by
      rw [List.getD_eq_getElem?_getD, List.getElem?_eq_getElem hi]
      rfl
    rw [he]
    exact h _ (List.getElem_mem hi)
  · have he : l.getD i 0 = 0 := by
      rw [List.getD_eq_getElem?_getD, List.getElem?_eq_none (by omega)]
      rfl
    rw [he]
    norm_num

theorem bm25ScoresOf_bounds (query : String) (n : Nat) (bm25 : Option (List String → List ℚ))
    (hbm : ∀ gs, bm25 = some gs → ∀ x ∈ gs (pyTokenize query), 0 ≤ x) :
    ∀ x ∈ bm25ScoresOf query n bm25, 0 ≤ x ∧ x ≤ 1 := by
  intro x hx
  match hb : bm25 with
  | none =>
    simp only [bm25ScoresOf] at hx
    rcases List.mem_replicate.mp hx with ⟨_, rfl⟩
    norm_num
  | some gs =>
    simp only [bm25ScoresOf] at hx
    split at hx
    · rcases List.mem_replicate.mp hx with ⟨_, rfl⟩
      norm_num
    · obtain ⟨r, hr, rfl⟩ := List.mem_map.mp hx
      have hr0 : 0 ≤ r := hbm gs rfl r hr
      by_cases hpos : 0 < rawMax (gs (pyTokenize query))
      · rw [if_pos hpos]
        constructor
        · exact div_nonneg hr0 (le_of_lt hpos)
        · exact (div_le_one hpos).mpr (le_rawMax _ r hr)
      · rw [if_neg hpos]
        have hr1 : r ≤ 0 := le_trans (le_rawMax _ r hr) (not_lt.mp hpos)
        have : r = 0 := le_antisymm hr1 hr0
        subst this
        norm_num

theorem embedScoresOf_bounds (query : String) (n : Nat) (embeddings : Option (List (List ℚ)))
    (embedQuery : String → Option (List ℚ))
    (hemb : ∀ em q, embeddings = some em → embedQuery query = some q →
        ∀ row ∈ em, -1 ≤ dotL row q ∧ dotL row q ≤ 1) :
    ∀ x ∈ embedScoresOf query n embeddings embedQuery, 0 ≤ x ∧ x ≤ 1 := by
  intro x hx
  match hb : embeddings with
  | none =>
    simp only [embedScoresOf] at hx
    rcases List.mem_replicate.mp hx with ⟨_, rfl⟩
    norm_num
  | some em =>
    simp only [embedScoresOf] at hx
    match hq : embedQuery query with
    | none =>
      rw [hq] at hx
      rcases List.mem_replicate.mp hx with ⟨_, rfl⟩
      norm_num
    | some q =>
      rw [hq] at hx
      obtain ⟨row, hrow, rfl⟩ := List.mem_map.mp hx
      obtain ⟨hlo, hhi⟩ := hemb em q rfl hq row hrow
      constructor
      · have h1 : (0:ℚ) ≤ dotL row q + 1 := by linarith
        exact div_nonneg h1 (by norm_num)
      · rw [div_le_one (by norm_num : (0:ℚ) < 2)]
        linarith

theorem combinedScoresOf_bounds (bs es : List ℚ) (hasEmb : Bool)
    (hbs : ∀ x ∈ bs, 0 ≤ x ∧ x ≤ 1) (hes : ∀ x ∈ es, 0 ≤ x ∧ x ≤ 1) :
    ∀ x ∈ combinedScoresOf bs es hasEmb, 0 ≤ x ∧ x ≤ 1 := by
  intro x hx
  cases hasEmb with
  | false => exact hbs x hx
  | true =>
    simp only [combinedScoresOf] at hx
    obtain ⟨⟨a, b⟩, hab, rfl⟩ := List.mem_map.mp hx
    obtain ⟨ha, hb⟩ := List.of_mem_zip hab
    obtain ⟨ha0, ha1⟩ := hbs a ha
    obtain ⟨hb0, hb1⟩ := hes b hb
    unfold BM25_WEIGHT EMBED_WEIGHT
    constructor
    · have h1 : (0:ℚ) ≤ 35/100 * a := mul_nonneg (by norm_num) ha0
      have h2 : (0:ℚ) ≤ 65/100 * b := mul_nonneg (by norm_num) hb0
      linarith
    · have h1 : (35:ℚ)/100 * a ≤ 35/100 := by nlinarith
      have h2 : (65:ℚ)/100 * b ≤ 65/100 := by nlinarith
      linarith

/-- Claim C7: for every hit returned by retrieve, the lexical score is
in [0,1] (raw scores divided by the positive maximum, or zeros), the
semantic score is in [0,1] (cosine rescaled via (sim + 1) / 2), and the
combined 0.35 lexical + 0.65 semantic score (or the lexical score alone
without a semantic index) is in [0,1].  The hypotheses state what the
spec assumes of the external collaborators: raw BM25 scores are
nonnegative and stored vectors are unit length, so cosines lie in
[-1,1]. -/
theorem retrieve_scores_bounded (query : String) (chunks : List Chunk)
    (bm25 : Option (List String → List ℚ)) (embeddings : Option (List (List ℚ)))
    (embedQuery : String → Option (List ℚ)) (k : Nat) (minScore : ℚ)
    (hbm : ∀ gs, bm25 = some gs → ∀ x ∈ gs (pyTokenize query), 0 ≤ x)
    (hemb : ∀ em q, embeddings = some em → embedQuery query = some q →
        ∀ row ∈ em, -1 ≤ dotL row q ∧ dotL row q ≤ 1) :
    ∀ h ∈ retrieve query chunks bm25 embeddings embedQuery k minScore,
      (0 ≤ h.bm25 ∧ h.bm25 ≤ 1) ∧ (0 ≤ h.semantic ∧ h.semantic ≤ 1) ∧
      (0 ≤ h.score ∧ h.score ≤ 1) := by
  intro h hh
  unfold retrieve at hh
  split at hh
  · simp at hh
  · have hh2 : h ∈ walkRanking chunks
        (combinedScoresOf (bm25ScoresOf query chunks.length bm25)
          (embedScoresOf query chunks.length embeddings embedQuery) embeddings.isSome)
        (bm25ScoresOf query chunks.length bm25)
        (embedScoresOf query chunks.length embeddings embedQuery) minScore k
        (argsortDesc (combinedScoresOf (bm25ScoresOf query chunks.length bm25)
          (embedScoresOf query chunks.length embeddings embedQuery) embeddings.isSome)) [] 0 := hh
    obtain ⟨sub, hs, he⟩ :=
      walkRanking_sub chunks
        (combinedScoresOf (bm25ScoresOf query chunks.length bm25)
          (embedScoresOf query chunks.length embeddings embedQuery) embeddings.isSome)
        (bm25ScoresOf query chunks.length bm25)
        (embedScoresOf query chunks.length embeddings embedQuery) minScore k
        (argsortDesc (combinedScoresOf (bm25ScoresOf query chunks.length bm25)
          (embedScoresOf query chunks.length embeddings embedQuery) embeddings.isSome)) [] 0
    rw [he] at hh2
    obtain ⟨i, _, rfl⟩ := List.mem_map.mp hh2
    have hbs := bm25ScoresOf_bounds query chunks.length bm25 hbm
    have hes := embedScoresOf_bounds query chunks.length embeddings embedQuery hemb
    have hcs := combinedScoresOf_bounds (bm25ScoresOf query chunks.length bm25)
      (embedScoresOf query chunks.length embeddings embedQuery) embeddings.isSome hbs hes
    exact ⟨getD_bounds_01 _ hbs i, getD_bounds_01 _ hes i, getD_bounds_01 _ hcs i⟩

/-- Witness for claim C7 at a concrete hybrid index: one chunk, raw
bm25 score 2, one unit embedding row. -/
theorem retrieve_scores_bounded_witness :
    (0 ≤ ((retrieve "qq"
        [{ key := "a", page := "1", text := "ta", heading := none, title := none,
           authors := none, year := none }]
        (some (fun _ => [2])) (some [[1]]) (fun _ => some [1]) TOP_K MIN_SCORE).headD
          hitDefault).bm25 ∧
      ((retrieve "qq"
        [{ key := "a", page := "1", text := "ta", heading := none, title := none,
           authors := none, year := none }]
        (some (fun _ => [2])) (some [[1]]) (fun _ => some [1]) TOP_K MIN_SCORE).headD
          hitDefault).bm25 ≤ 1) ∧
    (0 ≤ ((retrieve "qq"
        [{ key := "a", page := "1", text := "ta", heading := none, title := none,
           authors := none, year := none }]
        (some (fun _ => [2])) (some [[1]]) (fun _ => some [1]) TOP_K MIN_SCORE).headD
          hitDefault).semantic ∧
      ((retrieve "qq"
        [{ key := "a", page := "1", text := "ta", heading := none, title := none,
           authors := none, year := none }]
        (some (fun _ => [2])) (some [[1]]) (fun _ => some [1]) TOP_K MIN_SCORE).headD
          hitDefault).semantic ≤ 1) ∧
    (0 ≤ ((retrieve "qq"
        [{ key := "a", page := "1", text := "ta", heading := none, title := none,
           authors := none, year := none }]
        (some (fun _ => [2])) (some [[1]]) (fun _ => some [1]) TOP_K MIN_SCORE).headD
          hitDefault).score ∧
      ((retrieve "qq"
        [{ key := "a", page := "1", text := "ta", heading := none, title := none,
           authors := none, year := none }]
        (some (fun _ => [2])) (some [[1]]) (fun _ => some [1]) TOP_K MIN_SCORE).headD
          hitDefault).score ≤ 1) :=
  retrieve_scores_bounded "qq"
    [{ key := "a", page := "1", text := "ta", heading := none, title := none,
       authors := none, year := none }]
    (some (fun _ => [2])) (some [[1]]) (fun _ => some [1]) TOP_K MIN_SCORE
    (by intro gs hgs; cases hgs; with_unfolding_all decide)
    (by intro em q hem hq; cases hem; cases hq; with_unfolding_all decide)
    _ (by with_unfolding_all decide)

/-! ## Context assembly lemmas -/

theorem fcParts_sum (mw : Nat) : ∀ (hits : List Hit) (total : Nat), total ≤ mw →
    partsWordCount (fcParts mw hits total) + total ≤ mw := by
  intro hits
  induction hits with
  | nil => intro total ht; simpa [fcParts, partsWordCount] using ht
  | cons h rest ih =>
    intro total ht
    simp only [fcParts]
    split
    · rename_i hover
      split
      · simpa [partsWordCount] using ht
      · rename_i hrem
        have hval : ∀ w ∈ (pySplit h.text).take (mw - total),
            w.data ≠ [] ∧ ∀ c ∈ w.data, c.isWhitespace = false :=
          fun w hw => pySplit_valid h.text w (List.mem_of_mem_take hw)
        have hcw : mw - total < (pySplit h.text).length := by omega
        have hlen2 : ((pySplit h.text).take (mw - total)).length = mw - total := by
          rw [List.length_take]
          omega
        have hne : (pySplit h.text).take (mw - total) ≠ [] := by
          intro hx
          rw [hx] at hlen2
          simp at hlen2
          omega
        have hlen := pySplit_joinSp_ellipsis _ hne hval
        simp only [partsWordCount, List.map_cons, List.map_nil, List.sum_cons, List.sum_nil]
        rw [hlen, hlen2]
        omega
    · rename_i hfits
      have ht2 : total + (pySplit h.text).length ≤ mw := by omega
      have hrec := ih (total + (pySplit h.text).length) ht2
      simp only [partsWordCount, List.map_cons, List.sum_cons] at hrec ⊢
      omega

theorem fcParts_shape (mw : Nat) : ∀ (hits : List Hit) (total : Nat),
    ∀ p ∈ fcParts mw hits total,
      (∃ h, h ∈ hits ∧ p.2 = h.text) ∨
      (∃ h r, h ∈ hits ∧ 0 < r ∧ p.2 = joinSp ((pySplit h.text).take r) ++ "…") := by
  intro hits
  induction hits with
  | nil => intro total p hp; simp [fcParts] at hp
  | cons h rest ih =>
    intro total p hp
    simp only [fcParts] at hp
    split at hp
    · split at hp
      · simp at hp
      · rename_i hrem
        simp only [List.mem_singleton] at hp
        subst hp
        right
        exact ⟨h, mw - total, by simp, by omega, rfl⟩
    · rcases List.mem_cons.mp hp with rfl | hp
      · left
        exact ⟨h, by simp, rfl⟩
      · rcases ih (total + (pySplit h.text).length) p hp with ⟨g, hg, he⟩ | ⟨g, r, hg, hr, he⟩
        · exact Or.inl ⟨g, by simp [hg], he⟩
        · exact Or.inr ⟨g, r, by simp [hg], hr, he⟩

theorem fcParts_prefix_text (mw : Nat) : ∀ (hits : List Hit) (total j : Nat),
    j + 1 < (fcParts mw hits total).length →
    ((fcParts mw hits total).getD j partDefault).2 = (hits.getD j hitDefault).text := by
  intro hits
  induction hits with
  | nil => intro total j hj; simp [fcParts] at hj
  | cons h rest ih =>
    intro total j hj
    simp only [fcParts] at hj ⊢
    by_cases hover : mw < total + (pySplit h.text).length
    · rw [if_pos hover] at hj ⊢
      by_cases hrem : mw - total < 50
      · rw [if_pos hrem] at hj
        simp at hj
      · rw [if_neg hrem] at hj
        simp at hj
    · rw [if_neg hover] at hj ⊢
      cases j with
      | zero => simp [List.getD_cons_zero]
      | succ j2 =>
        simp only [List.length_cons] at hj
        have hj2 : j2 + 1 < (fcParts mw rest (total + (pySplit h.text).length)).length := by
          omega
        simp only [List.getD_cons_succ]
        exact ih (total + (pySplit h.text).length) j2 hj2

/-- Claim C2 (amended): the budget bounds the words drawn from hit
texts, not the whole returned block.  The sum over the emitted parts of
the word count of each part body is at most max_words; every part body
is either a full hit text or a word-boundary truncation (the join of a
nonempty prefix of the hit words, ellipsis glued to the final word);
every part except possibly the last is the full text of the
corresponding leading hit, so later hits are dropped whole once the
budget is exhausted; and format_context renders exactly these parts,
prefixing each with its citation label and joining with separators
(whose words are outside the budget, see the counterexample). -/
theorem format_context_budget_amended (hits : List Hit) (mw : Nat) :
    partsWordCount (fcParts mw hits 0) ≤ mw ∧
    (∀ p ∈ fcParts mw hits 0,
      (∃ h, h ∈ hits ∧ p.2 = h.text) ∨
      (∃ h r, h ∈ hits ∧ 0 < r ∧ p.2 = joinSp ((pySplit h.text).take r) ++ "…")) ∧
    (∀ j : Nat, j + 1 < (fcParts mw hits 0).length →
      ((fcParts mw hits 0).getD j partDefault).2 = (hits.getD j hitDefault).text) ∧
    format_context hits mw =
      String.intercalate "\n\n---\n\n" ((fcParts mw hits 0).map (fun p => p.1 ++ "\n" ++ p.2)) := by
  refine ⟨?_, fcParts_shape mw hits 0, fcParts_prefix_text mw hits 0, rfl⟩
  have hsum := fcParts_sum mw hits 0 (Nat.zero_le mw)
  omega

/-- Claim C2 counterexample: one hit whose text is the single word "a"
with max_words = 1: the hit text fits the budget, but the returned
block also contains the citation label, so the block has 3
whitespace-separated words, exceeding max_words = 1. -/
theorem format_context_budget_counterexample :
    (pySplit (format_context
        [{ key := "k", page := "1", text := "a", heading := none, title := none,
           authors := none, year := none, score := 0, bm25 := 0, semantic := 0 }] 1)).length = 3 ∧
    ¬ (pySplit (format_context
        [{ key := "k", page := "1", text := "a", heading := none, title := none,
           authors := none, year := none, score := 0, bm25 := 0, semantic := 0 }] 1)).length ≤ 1 := by
  decide

/-- Witness for the amended claim C2: with two one-word hits and a
budget of 100, the first emitted part body is exactly the first hit
text. -/
theorem format_context_budget_amended_witness :
    ((fcParts 100
        [{ key := "k", page := "1", text := "x", heading := none, title := none,
           authors := none, year := none, score := 0, bm25 := 0, semantic := 0 },
         { key := "m", page := "2", text := "y", heading := none, title := none,
           authors := none, year := none, score := 0, bm25 := 0, semantic := 0 }] 0).getD 0
      partDefault).2 =
    (([{ key := "k", page := "1", text := "x", heading := none, title := none,
         authors := none, year := none, score := 0, bm25 := 0, semantic := 0 },
       { key := "m", page := "2", text := "y", heading := none, title := none,
         authors := none, year := none, score := 0, bm25 := 0, semantic := 0 }] : List Hit).getD 0
      hitDefault).text :=
  (format_context_budget_amended
      [{ key := "k", page := "1", text := "x", heading := none, title := none,
         authors := none, year := none, score := 0, bm25 := 0, semantic := 0 },
       { key := "m", page := "2", text := "y", heading := none, title := none,
         authors := none, year := none, score := 0, bm25 := 0, semantic := 0 }] 100).2.2.1 0
    (by decide)

/-! ## Stream and endpoint lemmas -/

/-- Claim C3: every chat event stream emits exactly one done event, the
done event is the last event of the stream, and a mid-stream generator
error is emitted as a token-shaped event immediately before the final
done rather than propagating. -/
theorem stream_llm_single_done (query context : String) (srcs : List Hit) (gk ok ak : String)
    (genToks : List String) (genErr : Option String) :
    (stream_llm query context srcs gk ok ak genToks genErr).count Event.done = 1 ∧
    (stream_llm query context srcs gk ok ak genToks genErr).getLast? = some Event.done ∧
    (∀ e, genErr = some e → ¬(gk = "" ∧ ok = "" ∧ ak = "") →
      stream_llm query context srcs gk ok ak genToks genErr =
        Event.sources (srcs.map mkSourceInfo) ::
          (genToks.map Event.token ++
            [Event.token ("Error (" ++ pickProvider gk ok ak ++ "): " ++ e), Event.done])) := by
  have h0 : (genToks.map Event.token).count Event.done = 0 :=
    List.count_eq_zero.mpr (by simp)
  refine ⟨?_, ?_, ?_⟩
  · simp only [stream_llm]
    by_cases hkeys : gk = "" ∧ ok = "" ∧ ak = ""
    · rw [if_pos hkeys]
      simp [List.count_cons]
    · rw [if_neg hkeys]
      cases genErr with
      | none => simp [List.count_cons, List.count_append, h0]
      | some e => simp [List.count_cons, List.count_append, h0]
  · simp only [stream_llm]
    by_cases hkeys : gk = "" ∧ ok = "" ∧ ak = ""
    · rw [if_pos hkeys]
      rfl
    · rw [if_neg hkeys]
      cases genErr with
      | none =>
        rw [show Event.sources (srcs.map mkSourceInfo) ::
              (genToks.map Event.token ++ ([] ++ [Event.done])) =
            (Event.sources (srcs.map mkSourceInfo) :: genToks.map Event.token) ++ [Event.done] by
          simp]
        exact List.getLast?_concat _
      | some e =>
        rw [show Event.sources (srcs.map mkSourceInfo) ::
              (genToks.map Event.token ++
                ([Event.token ("Error (" ++ pickProvider gk ok ak ++ "): " ++ e)] ++ [Event.done])) =
            (Event.sources (srcs.map mkSourceInfo) ::
              (genToks.map Event.token ++
                [Event.token ("Error (" ++ pickProvider gk ok ak ++ "): " ++ e)])) ++ [Event.done] by
          simp]
        exact List.getLast?_concat _
  · intro e he hkeys
    subst he
    simp only [stream_llm]
    rw [if_neg hkeys]
    simp

/-- Witness for claim C3 on a concrete failing stream: one token, then
the generator raises with message boom; the Gemini key is set. -/
theorem stream_llm_single_done_witness :
    (stream_llm "q" "ctx" [] "g" "" "" ["tok"] (some "boom")).count Event.done = 1 ∧
    (stream_llm "q" "ctx" [] "g" "" "" ["tok"] (some "boom")).getLast? = some Event.done ∧
    stream_llm "q" "ctx" [] "g" "" "" ["tok"] (some "boom") =
      Event.sources (([] : List Hit).map mkSourceInfo) ::
        (["tok"].map Event.token ++
          [Event.token ("Error (" ++ pickProvider "g" "" "" ++ "): " ++ "boom"), Event.done]) :=
  ⟨(stream_llm_single_done "q" "ctx" [] "g" "" "" ["tok"] (some "boom")).1,
   (stream_llm_single_done "q" "ctx" [] "g" "" "" ["tok"] (some "boom")).2.1,
   (stream_llm_single_done "q" "ctx" [] "g" "" "" ["tok"] (some "boom")).2.2 "boom" rfl
     (by decide)⟩

/-- Claim C8 (amended): the chat endpoint rejects an empty or
whitespace-only query with the explicit empty-query error before
retrieval; the search endpoint performs no emptiness check (see the
counterexample). -/
theorem chat_rejects_empty_query (bodyQuery : Option String) (chunks : List Chunk)
    (bm25 : Option (List String → List ℚ)) (embeddings : Option (List (List ℚ)))
    (embedQuery : String → Option (List ℚ)) (gk ok ak : String)
    (genToks : List String) (genErr : Option String)
    (hq : pyStrip (bodyQuery.getD "") = "") :
    chat bodyQuery chunks bm25 embeddings embedQuery gk ok ak genToks genErr =
      ChatResponse.error "empty query" := by
  simp only [chat, hq]
  simp

/-- Witness for the amended claim C8: a whitespace-only chat query is
rejected. -/
theorem chat_rejects_empty_query_witness :
    chat (some "   ") [] none none (fun _ => none) "" "" "" [] none =
      ChatResponse.error "empty query" :=
  chat_rejects_empty_query (some "   ") [] none none (fun _ => none) "" "" "" [] none (by decide)

/-- Claim C8 counterexample: the search endpoint does not reject the
empty query: with one indexed chunk and a semantic index, searching for
the empty string silently scores it and returns a hit, instead of an
empty-query error. -/
theorem search_scores_empty_query :
    (search (some "") none
        [{ key := "a", page := "1", text := "ta", heading := none, title := none,
           authors := none, year := none }]
        none (some [[1]]) (fun _ => some [1])).hits.length = 1 ∧
    (search (some "") none
        [{ key := "a", page := "1", text := "ta", heading := none, title := none,
           authors := none, year := none }]
        none (some [[1]]) (fun _ => some [1])).query = "" := by
  with_unfolding_all decide

/-! ## Fixed-window coverage lemmas -/

theorem chunk_text_window_mem (text key page : String) (m : Nat)
    (hlt : m * 300 < (pySplit text).length)
    (hmin : 20 ≤ min 350 ((pySplit text).length - m * 300)) :
    ({ key := key, page := page,
       text := joinSp (((pySplit text).drop (m * 300)).take 350), heading := none,
       title := none, authors := none, year := none } : Chunk) ∈
      chunk_text text key page 350 50 ∧
    pySplit (joinSp (((pySplit text).drop (m * 300)).take 350)) =
      ((pySplit text).drop (m * 300)).take 350 := by
  have hval : ∀ w ∈ ((pySplit text).drop (m * 300)).take 350,
      w.data ≠ [] ∧ ∀ c ∈ w.data, c.isWhitespace = false :=
    fun w hw => pySplit_valid text w (List.mem_of_mem_drop (List.mem_of_mem_take hw))
  have hrt := pySplit_joinSp (((pySplit text).drop (m * 300)).take 350) hval
  refine ⟨?_, hrt⟩
  have hlen : (((pySplit text).drop (m * 300)).take 350).length =
      min 350 ((pySplit text).length - m * 300) := by
    rw [List.length_take, List.length_drop]
  simp only [chunk_text]
  split
  · rename_i hemp
    rw [List.isEmpty_iff] at hemp
    rw [hemp] at hlt
    simp at hlt
  · refine List.mem_filterMap.mpr ⟨m * 300, ?_, ?_⟩
    · rw [show (350 - 50 : Nat) = 300 from rfl]
      exact mem_pyRange_of _ 300 m (by norm_num) hlt
    · have hguard : ¬ (pySplit (joinSp (((pySplit text).drop (m * 300)).take 350))).length < 20 := by
        rw [hrt, hlen]
        omega
      simp only [if_neg hguard]

theorem chunk_text_cover_at (text key page : String) (w : String) (j m2 : Nat)
    (hj : j < (pySplit text).length)
    (hje : (pySplit text)[j]? = some w)
    (hle : m2 * 300 ≤ j) (hlt350 : j - m2 * 300 < 350)
    (hkeep : 20 ≤ min 350 ((pySplit text).length - m2 * 300)) :
    ∃ c ∈ chunk_text text key page 350 50, w ∈ pySplit c.text := by
  obtain ⟨hmem, hrt⟩ := chunk_text_window_mem text key page m2 (by omega) hkeep
  refine ⟨_, hmem, ?_⟩
  show w ∈ pySplit (joinSp (((pySplit text).drop (m2 * 300)).take 350))
  rw [hrt]
  have h1 : (((pySplit text).drop (m2 * 300)).take 350)[j - m2 * 300]? = some w := by
    rw [List.getElem?_take, if_pos hlt350, List.getElem?_drop,
      show m2 * 300 + (j - m2 * 300) = j from by omega]
    exact hje
  exact List.getElem?_mem h1

/-- Claim C10: a page with at least 20 whitespace-separated words always
produces at least one fixed-window chunk, and every word of the page
occurs in at least one emitted chunk: a trailing window dropped for
having fewer than 20 words is entirely contained in the preceding
emitted window, because the 50-word overlap exceeds the 20-word
minimum. -/
theorem chunk_text_covers (text key page : String) (h : 20 ≤ (pySplit text).length) :
    chunk_text text key page CHUNK_WORDS CHUNK_OVERLAP ≠ [] ∧
    ∀ w ∈ pySplit text, ∃ c ∈ chunk_text text key page CHUNK_WORDS CHUNK_OVERLAP,
      w ∈ pySplit c.text := by
  have hconv : chunk_text text key page CHUNK_WORDS CHUNK_OVERLAP =
      chunk_text text key page 350 50 := rfl
  rw [hconv]
  constructor
  · have h0 := chunk_text_window_mem text key page 0 (by omega) (by omega)
    exact List.ne_nil_of_mem h0.1
  · intro w hw
    obtain ⟨j, hj, hje⟩ := List.mem_iff_getElem.mp hw
    have hje2 : (pySplit text)[j]? = some w := by
      rw [List.getElem?_eq_getElem hj, hje]
    have hdm := Nat.div_add_mod j 300
    have hmod : j % 300 < 300 := Nat.mod_lt _ (by norm_num)
    by_cases hkeep : 20 ≤ min 350 ((pySplit text).length - (j / 300) * 300)
    · exact chunk_text_cover_at text key page w j (j / 300) hj hje2 (by omega) (by omega) hkeep
    · have ht1 : 1 ≤ j / 300 := by omega
      exact chunk_text_cover_at text key page w j (j / 300 - 1) hj hje2 (by omega) (by omega)
        (by omega)

/-- Witness for claim C10 at a concrete 20-word page: at least one chunk
is emitted. -/
theorem chunk_text_covers_witness :
    chunk_text "a b c d e f g h i j k l m n o p q r s t" "k" "1" CHUNK_WORDS CHUNK_OVERLAP ≠ [] :=
  (chunk_text_covers "a b c d e f g h i j k l m n o p q r s t" "k" "1" (by decide)).1
